import Mathlib

/-!
Verification development for the bank-statement extraction pipeline of
`app.py` (Streamlit app: bank statement → transaction table).

The Python source is shallowly embedded here:
* the regex heuristics of `parse_pdf_smart` (date pattern, amount pattern,
  `re.search` / `re.findall` with Python's leftmost, ordered-alternation,
  greedy-with-backtracking semantics restricted to the two concrete
  patterns of the source),
* Python `str` helpers used by the source (`replace`, `strip`, `split`,
  `float(...)` on plain decimal strings, `in` substring test, `lower`),
* the pandas column pipeline of the upload path (normalize names, rename
  via `col_mapping`, debit/credit combine guard, `dropna(axis=1, how=all)`,
  duplicate-column removal, name strip, `Date` check, `to_numeric` on
  `Amount`),
* the PDF orchestration (text layer per page, OCR fallback, line loop,
  `to_datetime(dayfirst=True)` + `dropna` row filtering), with the external
  extractors (pdfplumber, pytesseract, pandas date parser) as explicit
  inputs, since their behavior is outside this repository.

Amounts are modelled as exact rationals: the only float operation the
source performs on them is parsing a decimal literal, which is exact.
Character classes (`\d`, `\w`, `[a-z]`, lowercasing) are modelled over
ASCII, which covers every string appearing in the spec's examples.
-/

namespace BankApp

/-! ### Python string primitives -/

/-- The ASCII uppercase-to-lowercase table. -/
def upperLowerPairs : List (Char × Char) :=
  [('A','a'), ('B','b'), ('C','c'), ('D','d'), ('E','e'), ('F','f'), ('G','g'),
   ('H','h'), ('I','i'), ('J','j'), ('K','k'), ('L','l'), ('M','m'), ('N','n'),
   ('O','o'), ('P','p'), ('Q','q'), ('R','r'), ('S','s'), ('T','t'), ('U','u'),
   ('V','v'), ('W','w'), ('X','x'), ('Y','y'), ('Z','z')]

/-- ASCII model of Python `str.lower` on a single character. -/
def lowerChar (c : Char) : Char :=
  ((upperLowerPairs.find? (fun p => p.1 == c)).map Prod.snd).getD c

/-- Strip leading and trailing whitespace from a character list
(Python `str.strip()`). -/
def stripChars (l : List Char) : List Char :=
  ((l.dropWhile Char.isWhitespace).reverse.dropWhile Char.isWhitespace).reverse

/-- Python `str.strip()`. -/
def stripWs (s : String) : String := String.mk (stripChars s.data)

/-- Python `row.replace(",", "")`: delete every comma. -/
def stripCommas (s : String) : String :=
  String.mk (s.data.filter (fun c => !(c == ',')))

/-- One pass of Python `str.replace(pat, "")` for a nonempty pattern,
fuelled by the length of the subject (each step consumes at least one
character, so `s.length` fuel is exact). -/
def removeAllF : Nat → List Char → List Char → List Char
  | 0, _, s => s
  | _ + 1, _, [] => []
  | f + 1, pat, c :: rest =>
    if pat.isPrefixOf (c :: rest) then removeAllF f pat ((c :: rest).drop pat.length)
    else c :: removeAllF f pat rest

/-- Python `s.replace(pat, "")` (all non-overlapping occurrences, left to
right; an empty pattern leaves the string unchanged, as replacing `""`
by `""` does in Python). -/
def pyReplaceDel (s pat : String) : String :=
  match pat.data with
  | [] => s
  | _ :: _ => String.mk (removeAllF s.data.length pat.data s.data)

/-- Python `pat in s` (substring test). -/
def isSubstr : List Char → List Char → Bool
  | pat, [] => pat.isEmpty
  | pat, c :: rest => pat.isPrefixOf (c :: rest) || isSubstr pat rest

/-- Python `pat in s` on strings. -/
def strContains (s pat : String) : Bool := isSubstr pat.data s.data

/-- Python `text.split("\n")` on a character list: always at least one
segment, empty segments preserved. -/
def splitNl : List Char → List (List Char)
  | [] => [[]]
  | c :: r =>
    match splitNl r with
    | [] => [[c]]
    | h :: t => if c == '\n' then [] :: h :: t else (c :: h) :: t

/-- Python `text.split("\n")`. -/
def splitLines (s : String) : List String := (splitNl s.data).map String.mk

/-- Decimal digits to a natural number (most significant first). -/
def digitsToNat (l : List Char) : Nat :=
  l.foldl (fun a c => a * 10 + (c.toNat - 48)) 0

/-- Model of Python `float(s)` on plain decimal strings (optional
surrounding whitespace, optional sign, integer digits, optional dot and
fraction digits; at least one digit overall, nothing else). This covers
the whole language the source can pass to `float`, which is the match
language of the amount regex with commas removed; a second dot (as in
`"1.234.56"`) is a `ValueError`, modelled as `none`. -/
def pyFloat (s : String) : Option ℚ :=
  let l := stripChars s.data
  let core : Bool × List Char :=
    match l with
    | '-' :: r => (true, r)
    | '+' :: r => (false, r)
    | r => (false, r)
  let neg := core.1
  let body := core.2
  let intPart := body.takeWhile Char.isDigit
  let rest := body.drop intPart.length
  match rest with
  | [] =>
    if intPart.isEmpty then none
    else
      let mag : Int := digitsToNat intPart
      some (mkRat (if neg then -mag else mag) 1)
  | '.' :: fr =>
    let frPart := fr.takeWhile Char.isDigit
    if (fr.drop frPart.length).isEmpty && !(intPart.isEmpty && frPart.isEmpty) then
      let mag : Int := digitsToNat intPart * (10 : Int) ^ frPart.length + digitsToNat frPart
      some (mkRat (if neg then -mag else mag) ((10 : Nat) ^ frPart.length))
    else none
  | _ => none

/-! ### The amount regex

Source pattern (line 56 of `app.py`):
`-?\d{1,3}(?:[.,]\d{3})*(?:[.,]\d{2})?`
applied with `re.findall` to the comma-stripped line. Everything after
the mandatory `\d{1,3}` is optional, so Python's greedy engine never
backtracks into an earlier quantifier once it has matched maximally:
each quantifier simply consumes its maximum. -/

/-- Greedy `\d{0,n}`: split off at most `n` leading digits. -/
def takeDigits : Nat → List Char → List Char × List Char
  | 0, l => ([], l)
  | _ + 1, [] => ([], [])
  | n + 1, c :: l =>
    if c.isDigit then
      let t := takeDigits n l
      (c :: t.1, t.2)
    else ([], c :: l)

/-- Greedy `(?:[.,]\d{3})*`: split off the maximal run of
separator-plus-three-digit groups. -/
def groups3 : List Char → List Char × List Char
  | c :: d1 :: d2 :: d3 :: rest =>
    if (c == '.' || c == ',') && d1.isDigit && d2.isDigit && d3.isDigit then
      let t := groups3 rest
      (c :: d1 :: d2 :: d3 :: t.1, t.2)
    else ([], c :: d1 :: d2 :: d3 :: rest)
  | l => ([], l)

/-- Greedy `(?:[.,]\d{2})?`: split off one separator-plus-two-digit
group if present. -/
def frac2 : List Char → List Char × List Char
  | c :: d1 :: d2 :: rest =>
    if (c == '.' || c == ',') && d1.isDigit && d2.isDigit then ([c, d1, d2], rest)
    else ([], c :: d1 :: d2 :: rest)
  | l => ([], l)

/-- Match of the amount regex anchored at the head of `s`: returns the
matched characters and the remainder. A leading `-` is taken only when
followed by a digit (otherwise the optional `-?` backtracks to empty and
the mandatory `\d{1,3}` fails). -/
def amountMatchAt (s : List Char) : Option (List Char × List Char) :=
  match s with
  | [] => none
  | c :: rest =>
    if c.isDigit then
      let t1 := takeDigits 3 (c :: rest)
      let t2 := groups3 t1.2
      let t3 := frac2 t2.2
      some (t1.1 ++ t2.1 ++ t3.1, t3.2)
    else if c == '-' then
      match rest with
      | [] => none
      | c2 :: _ =>
        if c2.isDigit then
          let t1 := takeDigits 3 rest
          let t2 := groups3 t1.2
          let t3 := frac2 t2.2
          some ('-' :: (t1.1 ++ t2.1 ++ t3.1), t3.2)
        else none
    else none

/-- Python `re.findall` of the amount regex: scan left to right, take
each leftmost non-overlapping match. Fuelled; every step consumes at
least one character, so fuel equal to the length of the subject is
exact (`findAllF_fuel` below). -/
def findAllF : Nat → List Char → List (List Char)
  | 0, _ => []
  | _ + 1, [] => []
  | f + 1, c :: rest =>
    match amountMatchAt (c :: rest) with
    | some (m, r) => m :: findAllF f r
    | none => findAllF f rest

/-- `re.findall(amount_regex, s)`. -/
def findAllS (s : String) : List String := (findAllF s.data.length s.data).map String.mk

theorem takeDigits_snd_le (n : Nat) (l : List Char) :
    (takeDigits n l).2.length ≤ l.length := by
  induction n generalizing l with
  | zero => simp [takeDigits]
  | succ n ih =>
    cases l with
    | nil => simp [takeDigits]
    | cons c l =>
      simp only [takeDigits]
      by_cases h : c.isDigit
      · simp only [h, if_true]
        exact le_trans (ih l) (Nat.le_succ _)
      · simp [h]

theorem groups3_snd_le (l : List Char) : (groups3 l).2.length ≤ l.length := by
  induction l using groups3.induct with
  | case1 c d1 d2 d3 rest h ih =>
    simp only [groups3, h, if_true]
    refine le_trans ih ?_
    simp only [List.length_cons]
    omega
  | case2 c d1 d2 d3 rest h =>
    simp [groups3, h]
  | case3 l h =>
    cases l with
    | nil => simp [groups3]
    | cons a l =>
      cases l with
      | nil => simp [groups3]
      | cons b l =>
        cases l with
        | nil => simp [groups3]
        | cons e l =>
          cases l with
          | nil => simp [groups3]
          | cons f l => exact absurd rfl (h a b e f l)

theorem frac2_snd_le (l : List Char) : (frac2 l).2.length ≤ l.length := by
  cases l with
  | nil => simp [frac2]
  | cons a l =>
    cases l with
    | nil => simp [frac2]
    | cons b l =>
      cases l with
      | nil => simp [frac2]
      | cons c l =>
        simp only [frac2]
        by_cases h : (a == '.' || a == ',') && b.isDigit && c.isDigit
        · simp only [h, if_true]
          simp only [List.length_cons]
          omega
        · simp [h]

theorem amountMatchAt_rest_lt {s m r : List Char}
    (h : amountMatchAt s = some (m, r)) : r.length < s.length := by
  cases s with
  | nil => simp [amountMatchAt] at h
  | cons c rest =>
    simp only [amountMatchAt] at h
    by_cases hd : c.isDigit
    · simp only [hd, if_true] at h
      have h1 : (takeDigits 3 (c :: rest)).2.length ≤ rest.length := by
        simp only [takeDigits, hd, if_true]
        exact takeDigits_snd_le 2 rest
      have h2 := groups3_snd_le (takeDigits 3 (c :: rest)).2
      have h3 := frac2_snd_le (groups3 (takeDigits 3 (c :: rest)).2).2
      have : r = (frac2 (groups3 (takeDigits 3 (c :: rest)).2).2).2 := by
        cases h; rfl
      subst this
      simp only [List.length_cons]
      omega
    · simp only [hd, if_false] at h
      by_cases hm : c == '-'
      · simp only [hm, if_true] at h
        cases rest with
        | nil => simp at h
        | cons c2 rest2 =>
          by_cases hd2 : c2.isDigit
          · simp only [hd2, if_true] at h
            have h1 : (takeDigits 3 (c2 :: rest2)).2.length ≤ rest2.length := by
              simp only [takeDigits, hd2, if_true]
              exact takeDigits_snd_le 2 rest2
            have h2 := groups3_snd_le (takeDigits 3 (c2 :: rest2)).2
            have h3 := frac2_snd_le (groups3 (takeDigits 3 (c2 :: rest2)).2).2
            have : r = (frac2 (groups3 (takeDigits 3 (c2 :: rest2)).2).2).2 := by
              cases h; rfl
            subst this
            simp only [List.length_cons]
            omega
          · simp [hd2] at h
      · simp [hm] at h

/-- Fuel above the subject length is irrelevant: the fuelled scanner
computes the true (fuel-free) scan. -/
theorem findAllF_fuel (f g : Nat) (s : List Char) (hf : s.length ≤ f)
    (hg : s.length ≤ g) : findAllF f s = findAllF g s := by
  induction f generalizing g s with
  | zero =>
    have : s = [] := List.length_eq_zero.mp (Nat.le_zero.mp hf)
    subst this
    cases g <;> rfl
  | succ f ih =>
    cases s with
    | nil => cases g <;> rfl
    | cons c rest =>
      cases g with
      | zero => simp at hg
      | succ g =>
        simp only [findAllF]
        cases hmatch : amountMatchAt (c :: rest) with
        | none =>
          simp only [List.length_cons] at hf hg
          exact ih g rest (by omega) (by omega)
        | some mr =>
          obtain ⟨m, r⟩ := mr
          have hlt := amountMatchAt_rest_lt hmatch
          simp only [List.length_cons] at hlt hf hg
          have hrf : r.length ≤ f := by omega
          have hrg : r.length ≤ g := by omega
          simp only [ih g r hrf hrg]

/-! ### The date regex

Source pattern (lines 51-55 of `app.py`), an ordered alternation of three
branches applied with `re.search` (leftmost position wins; at a position
the first branch that matches wins). -/

/-- The `[/ or -]` class. -/
def isDateSep (c : Char) : Bool := c == '/' || c == '-'

/-- Python `\w` (ASCII): letters, digits, underscore. -/
def isWordChar (c : Char) : Bool := c.isAlphanum || c == '_'

/-- Branch `\d{2}[/ or -]\d{2}[/ or -]\d{2,4}` anchored at the head; the final
greedy `\d{2,4}` takes at most four digits and needs at least two. -/
def dateBranch1 : List Char → Option (List Char)
  | a :: b :: s1 :: c :: d :: s2 :: rest =>
    if a.isDigit && b.isDigit && isDateSep s1 && c.isDigit && d.isDigit && isDateSep s2 then
      let t := takeDigits 4 rest
      if 2 ≤ t.1.length then some (a :: b :: s1 :: c :: d :: s2 :: t.1) else none
    else none
  | _ => none

/-- Branch `\d{4}[/ or -]\d{2}[/ or -]\d{2}` anchored at the head. -/
def dateBranch2 : List Char → Option (List Char)
  | a :: b :: c :: d :: s1 :: e :: f :: s2 :: g :: h :: _ =>
    if a.isDigit && b.isDigit && c.isDigit && d.isDigit && isDateSep s1 &&
        e.isDigit && f.isDigit && isDateSep s2 && g.isDigit && h.isDigit then
      some [a, b, c, d, s1, e, f, s2, g, h]
    else none
  | _ => none

/-- The twelve month abbreviations of the third branch. -/
def monthNames : List (List Char) :=
  [['J','a','n'], ['F','e','b'], ['M','a','r'], ['A','p','r'],
   ['M','a','y'], ['J','u','n'], ['J','u','l'], ['A','u','g'],
   ['S','e','p'], ['O','c','t'], ['N','o','v'], ['D','e','c']]

/-- Lowercase ASCII letter (the `[a-z]` class). -/
def isLowAZ (c : Char) : Bool := 'a' ≤ c && c ≤ 'z'

/-- Final `\b` of the third branch: the character after the match must
not be a word character (or the match ends the string). -/
def boundOk : List Char → Bool
  | [] => true
  | c :: _ => !(isWordChar c)

/-- Tail `\d{t}[, ]*\d{4}\b` of the third branch for a fixed digit count
`t`. Shrinking the greedy `[, ]*` run always leaves a `[, ]` character
where `\d{4}` needs a digit, so only the maximal run can succeed. -/
def dateTailTry (t : Nat) (r : List Char) : Option (List Char) :=
  let d := r.take t
  if d.length == t && d.all Char.isDigit then
    let r1 := r.drop t
    let seps := r1.takeWhile (fun c => c == ',' || c == ' ')
    let r2 := r1.drop seps.length
    let y := r2.take 4
    if y.length == 4 && y.all Char.isDigit && boundOk (r2.drop 4) then
      some (d ++ seps ++ y)
    else none
  else none

/-- Branch `\b(?:Jan|...|Dec)[a-z]*[ -]\d{1,2}[, ]*\d{4}\b` anchored at
the head; `prevW` is whether the preceding character is a word character
(for the leading `\b`; the month letter itself is one). The greedy
`[a-z]*` cannot usefully backtrack (a shorter run leaves a lowercase
letter where `[ -]` needs a space or hyphen), while `\d{1,2}` tries two
digits and then one, exactly as Python's engine does. -/
def dateBranch3 (prevW : Bool) (s : List Char) : Option (List Char) :=
  if prevW then none
  else
    match s with
    | a :: b :: c :: rest =>
      if monthNames.contains [a, b, c] then
        let low := rest.takeWhile isLowAZ
        match rest.drop low.length with
        | sep :: r2 =>
          if sep == ' ' || sep == '-' then
            match dateTailTry 2 r2 with
            | some tl => some (a :: b :: c :: (low ++ sep :: tl))
            | none =>
              match dateTailTry 1 r2 with
              | some tl => some (a :: b :: c :: (low ++ sep :: tl))
              | none => none
          else none
        | [] => none
      else none
    | _ => none

/-- `re.search(date_regex, row)` scanning: at each position try the three
branches in order; move right one character on failure, tracking whether
the skipped character was a word character (for `\b`). -/
def dateSearchAux : Bool → List Char → Option (List Char)
  | _, [] => none
  | prevW, c :: rest =>
    match dateBranch1 (c :: rest) with
    | some m => some m
    | none =>
      match dateBranch2 (c :: rest) with
      | some m => some m
      | none =>
        match dateBranch3 prevW (c :: rest) with
        | some m => some m
        | none => dateSearchAux (isWordChar c) rest

/-- `re.search(date_regex, row)`, returning `.group()` of the match. -/
def dateSearch (row : String) : Option String :=
  (dateSearchAux false row.data).map String.mk

/-! ### The line loop of `parse_pdf_smart` (lines 58-65)

For each raw line: search for a date, find all amount matches in the
comma-stripped line; if both exist, `float` the last amount match (a
`ValueError` there, possible when the match keeps several dot groups,
escapes the function — modelled as `err`), and build the description by
deleting the date substring and the last amount substring from the
original line and stripping whitespace. -/

/-- Outcome of the loop body on one line. -/
inductive LineOut where
  | skip : LineOut
  | emit (date desc : String) (amount : ℚ) : LineOut
  | err : LineOut
deriving DecidableEq

/-- Lines 58-65 of `app.py` for a single `row`. -/
def lineResult (row : String) : LineOut :=
  match dateSearch row with
  | none => .skip
  | some dateVal =>
    match (findAllS (stripCommas row)).getLast? with
    | none => .skip
    | some lastM =>
      match pyFloat (stripCommas lastM) with
      | none => .err
      | some amt =>
        .emit dateVal (stripWs (pyReplaceDel (pyReplaceDel row dateVal) lastM)) amt

/-! ### The pandas table model (upload path, lines 114-148 and 167)

A table is an ordered list of named columns; a cell is missing (`NaN`),
a string, or a number. Every operation of the source's normalization
block is a column operation, modelled directly. -/

/-- One cell of a loaded table. -/
inductive Cell where
  | na : Cell
  | str (s : String) : Cell
  | num (q : ℚ) : Cell
deriving DecidableEq

/-- One named column. -/
structure Col where
  name : String
  cells : List Cell
deriving DecidableEq

/-- A loaded table: ordered columns. -/
abbrev Table := List Col

/-- Line 117-118: `normalize_col` — strip, lowercase, delete spaces and
underscores. -/
def normalizeCol (s : String) : String :=
  String.mk (((stripChars s.data).map lowerChar).filter (fun c => !(c == ' ' || c == '_')))

/-- Line 120: apply `normalize_col` to every column name. -/
def normalizeNames (t : Table) : Table :=
  t.map (fun c => { c with name := normalizeCol c.name })

/-- Lines 122-129: the keyword mapping built into `col_mapping`. -/
def colMapping (c : String) : Option String :=
  if strContains c "date" then some "Date"
  else if strContains c "description" || strContains c "details" || strContains c "transaction" then
    some "Description"
  else if strContains c "amount" || strContains c "value" || strContains c "debit" || strContains c "credit" then
    some "Amount"
  else none

/-- Line 130: `df.rename(columns=col_mapping)` — every column whose name
matched a keyword gets the canonical name, the rest keep theirs. -/
def applyMapping (t : Table) : Table :=
  t.map (fun c => { c with name := (colMapping c.name).getD c.name })

/-- Membership test `name in df.columns`. -/
def hasColName (t : Table) (n : String) : Bool := t.any (fun c => c.name == n)

/-- `df[n]` as a cell list (first column of that name; the source only
reads single-occurrence names on the live path). -/
def findColCells (t : Table) (n : String) : List Cell :=
  ((t.find? (fun c => c.name == n)).map Col.cells).getD []

/-- `fillna(0)` on one cell. -/
def fill0 : Cell → Cell
  | .na => .num 0
  | c => c

/-- Cellwise subtraction of the combine branch (numeric cells only;
pandas would raise on strings, but the branch is proved unreachable). -/
def cellSub : Cell → Cell → Cell
  | .num a, .num b => .num (a - b)
  | _, _ => .na

/-- Lines 135-137: if columns literally named `debit` and `credit` both
exist, set `Amount` to `credit.fillna(0) - debit.fillna(0)` and drop the
two source columns; otherwise leave the table unchanged. -/
def combineStep (t : Table) : Table :=
  if hasColName t "debit" && hasColName t "credit" then
    let newAmt := List.zipWith (fun cr db => cellSub (fill0 cr) (fill0 db))
      (findColCells t "credit") (findColCells t "debit")
    let t1 :=
      if hasColName t "Amount" then
        t.map (fun c => if c.name == "Amount" then { c with cells := newAmt } else c)
      else t ++ [⟨"Amount", newAmt⟩]
    t1.filter (fun c => !(c.name == "debit" || c.name == "credit"))
  else t

/-- Line 142: `df.dropna(axis=1, how=all)` — drop columns whose cells
are all missing. -/
def dropEmptyCols (t : Table) : Table :=
  t.filter (fun c => !(c.cells.all (· == Cell.na)))

/-- Helper for duplicate-column removal, carrying the names already seen. -/
def dedupAux (seen : List String) : Table → Table
  | [] => []
  | c :: rest =>
    if seen.contains c.name then dedupAux seen rest
    else c :: dedupAux (c.name :: seen) rest

/-- Line 143: `df.loc[:, ~df.columns.duplicated()]` — keep the first
occurrence of each column name. -/
def dedupCols (t : Table) : Table := dedupAux [] t

/-- Line 144: `df.columns.str.strip()`. -/
def stripNames (t : Table) : Table :=
  t.map (fun c => { c with name := stripWs c.name })

/-- User-facing hard stops of the upload path. -/
inductive PipeErr where
  | missingDate : PipeErr
  | missingAmountKey : PipeErr
deriving DecidableEq

/-- Lines 117-148: the whole column-normalization block, ending in the
`Date` presence check (`st.error` + `st.stop` when absent). -/
def normalizedCols (t : Table) : Table :=
  stripNames (dedupCols (dropEmptyCols (combineStep (applyMapping (normalizeNames t)))))

def normalizeTable (t : Table) : Except PipeErr Table :=
  if hasColName (normalizedCols t) "Date" then .ok (normalizedCols t)
  else .error .missingDate

/-- `pd.to_numeric(cell, errors=coerce)`: numbers pass, missing stays
missing, numeric-looking strings parse, everything else becomes missing. -/
def toNumericCell : Cell → Cell
  | .num q => .num q
  | .na => .na
  | .str s =>
    match pyFloat s with
    | some q => .num q
    | none => .na

/-- Line 167: `df["Amount"] = pd.to_numeric(df["Amount"], errors=coerce)`;
reading a missing `Amount` column is a `KeyError`. -/
def amountStep (t : Table) : Except PipeErr Table :=
  if hasColName t "Amount" then
    .ok (t.map (fun c => if c.name == "Amount" then { c with cells := c.cells.map toNumericCell } else c))
  else .error .missingAmountKey

/-- The CSV/spreadsheet path from a loaded table to the transaction
table handed to downstream consumers (lines 114-148 and 167). -/
def processTable (t : Table) : Except PipeErr Table :=
  (normalizeTable t).bind amountStep

/-! ### PDF orchestration (`parse_pdf_smart`, lines 28-71)

The external extractors are explicit inputs: `textPages` holds what
`page.extract_text()` returned per page (`none` for `None`), `ocrPages`
what `pytesseract.image_to_string` returns per rasterized page. -/

/-- A PDF as seen through the two extractors. -/
structure PdfDoc where
  textPages : List (Option String)
  ocrPages : List String

/-- Lines 36-38: a page's contribution to `rows` — nothing when
`extract_text` returned `None` or an empty (falsy) string, its split
lines otherwise. -/
def pageLines (p : Option String) : List String :=
  match p with
  | none => []
  | some t => if t == "" then [] else splitLines t

/-- Lines 33-38: the text-layer rows across all pages, in page order. -/
def textRows (d : PdfDoc) : List String :=
  d.textPages.foldr (fun p acc => pageLines p ++ acc) []

/-- Lines 44-47: the OCR loop — one `image_to_string` invocation per
page, extending `rows` with the split lines; also counts invocations. -/
def ocrLoop : List String → List String × Nat
  | [] => ([], 0)
  | p :: ps =>
    let t := ocrLoop ps
    (splitLines p ++ t.1, t.2 + 1)

/-- Lines 31-47: gather raw rows — text layer first, OCR only when it
yielded nothing; returns the rows and how many OCR invocations ran. -/
def gatherRows (d : PdfDoc) : List String × Nat :=
  let tr := textRows d
  if tr.isEmpty then ocrLoop d.ocrPages else (tr, 0)

/-- The raw text lines `parse_pdf_smart` goes on to scan. -/
def pdfRows (d : PdfDoc) : List String := (gatherRows d).1

/-- A line's candidate, when the loop body emits one. -/
def lineCand (r : String) : Option (String × String × ℚ) :=
  match lineResult r with
  | .emit d s a => some (d, s, a)
  | _ => none

/-- Lines 58-65: the loop over rows, building `data` in encounter order;
a `ValueError` from `float` aborts the whole call. -/
def parseLoop : List String → Except Unit (List (String × String × ℚ))
  | [] => .ok []
  | r :: rest =>
    match lineResult r with
    | .skip => parseLoop rest
    | .err => .error ()
    | .emit d s a =>
      match parseLoop rest with
      | .ok l => .ok ((d, s, a) :: l)
      | .error e => .error e

/-- Lines 68-70 for one candidate: `pd.to_datetime(..., dayfirst=True)`
followed by the `dropna` row filter — the candidate survives exactly
when the (external, day-first) date parser succeeds on its date text. -/
def candToTx {α : Type} (pd : String → Option α) (c : String × String × ℚ) :
    Option (α × String × ℚ) :=
  (pd c.1).map (fun x => (x, c.2.1, c.2.2))

/-- Lines 67-70: build the frame and drop rows whose date failed to
parse, keeping encounter order. -/
def finalizeRows {α : Type} (pd : String → Option α) (l : List (String × String × ℚ)) :
    List (α × String × ℚ) :=
  l.filterMap (candToTx pd)

/-- Lines 28-71: `parse_pdf_smart`, parametric in the external day-first
date parser `pd`. -/
def parsePdfSmart {α : Type} (pd : String → Option α) (d : PdfDoc) :
    Except Unit (List (α × String × ℚ)) :=
  match parseLoop (pdfRows d) with
  | .ok l => .ok (finalizeRows pd l)
  | .error e => .error e

/-- What one raw line contributes to the final table: its candidate, if
emitted and its date parses. -/
def rowToTx {α : Type} (pd : String → Option α) (r : String) : Option (α × String × ℚ) :=
  (lineCand r).bind (candToTx pd)

/-! ### Supporting lemmas -/

/-- Concatenation of line lists (reference form for the OCR loop). -/
def concatAll : List (List String) → List String
  | [] => []
  | l :: ls => l ++ concatAll ls

theorem ocrLoop_eq (ps : List String) :
    ocrLoop ps = (concatAll (ps.map splitLines), ps.length) := by
  induction ps with
  | nil => rfl
  | cons p ps ih => simp [ocrLoop, ih, concatAll]

theorem parseLoop_ok_eq {rows : List String} {l : List (String × String × ℚ)}
    (h : parseLoop rows = .ok l) : l = rows.filterMap lineCand := by
  induction rows generalizing l with
  | nil =>
    simp only [parseLoop] at h
    cases h
    simp
  | cons r rest ih =>
    simp only [parseLoop] at h
    cases hr : lineResult r with
    | skip =>
      rw [hr] at h
      rw [ih h]
      simp [List.filterMap_cons, lineCand, hr]
    | err =>
      rw [hr] at h
      cases h
    | emit d s a =>
      rw [hr] at h
      cases hrec : parseLoop rest with
      | ok l2 =>
        rw [hrec] at h
        cases h
        rw [ih hrec]
        simp [List.filterMap_cons, lineCand, hr]
      | error e =>
        rw [hrec] at h
        cases h

theorem parsePdfSmart_ok {α : Type} {pd : String → Option α} {d : PdfDoc}
    {out : List (α × String × ℚ)} (h : parsePdfSmart pd d = .ok out) :
    ∃ l, parseLoop (pdfRows d) = .ok l ∧ out = finalizeRows pd l := by
  unfold parsePdfSmart at h
  cases hm : parseLoop (pdfRows d) with
  | ok l =>
    rw [hm] at h
    cases h
    exact ⟨l, rfl, rfl⟩
  | error e =>
    rw [hm] at h
    cases h

theorem forall₂_map_succ {γ : Type} {R : Nat → γ → Prop} {ix : List Nat} {out : List γ}
    (h : List.Forall₂ (fun i c => R (i + 1) c) ix out) :
    List.Forall₂ R (ix.map (· + 1)) out := by
  induction h with
  | nil => exact .nil
  | cons h _ ih => exact .cons h ih

theorem filterMap_index_embed {β γ : Type} (f : β → Option γ) (l : List β) :
    ∃ ix : List Nat, ix.Pairwise (· < ·) ∧
      List.Forall₂ (fun i c => ∃ r, l.get? i = some r ∧ f r = some c) ix (l.filterMap f) := by
  induction l with
  | nil => exact ⟨[], List.Pairwise.nil, by simp⟩
  | cons a l ih =>
    obtain ⟨ix, hp, hf⟩ := ih
    cases hfa : f a with
    | none =>
      refine ⟨ix.map (· + 1), ?_, ?_⟩
      · exact (List.pairwise_map).mpr (hp.imp (by omega))
      · rw [List.filterMap_cons, hfa]
        exact forall₂_map_succ (hf.imp (fun i b h => by
          obtain ⟨r, hr, hfr⟩ := h
          exact ⟨r, by simpa using hr, hfr⟩))
    | some c =>
      refine ⟨0 :: ix.map (· + 1), ?_, ?_⟩
      · refine List.Pairwise.cons ?_ ((List.pairwise_map).mpr (hp.imp (by omega)))
        intro j hj
        obtain ⟨i, _, rfl⟩ := List.mem_map.mp hj
        omega
      · rw [List.filterMap_cons, hfa]
        refine List.Forall₂.cons ⟨a, rfl, hfa⟩ ?_
        exact forall₂_map_succ (hf.imp (fun i b h => by
          obtain ⟨r, hr, hfr⟩ := h
          exact ⟨r, by simpa using hr, hfr⟩))

theorem countP_filterMap_eq {β γ : Type} [DecidableEq γ] (f : β → Option γ)
    (l : List β) (t : γ) :
    (l.filterMap f).countP (fun x => decide (x = t)) =
      l.countP (fun r => decide (f r = some t)) := by
  induction l with
  | nil => rfl
  | cons a l ih =>
    rw [List.filterMap_cons, List.countP_cons]
    cases hfa : f a with
    | none => simp [hfa, ih]
    | some c => simp [hfa, ih, List.countP_cons]

theorem length_filterMap_eq_length_filter {β γ : Type} (f : β → Option γ) (l : List β) :
    (l.filterMap f).length = (l.filter (fun a => (f a).isSome)).length := by
  induction l with
  | nil => rfl
  | cons a l ih =>
    rw [List.filterMap_cons, List.filter_cons]
    cases hfa : f a with
    | none => simpa [hfa] using ih
    | some c => simpa [hfa] using ih

/-! ### Column-name lemmas -/

theorem lowerChar_ne_D (c : Char) : lowerChar c ≠ 'D' := by
  unfold lowerChar
  cases hf : upperLowerPairs.find? (fun p => p.1 == c) with
  | none =>
    have h := List.find?_eq_none.mp hf ('D', 'd') (by decide)
    simp only [Option.map_none', Option.getD_none]
    intro heq
    exact h (by rw [heq]; decide)
  | some p =>
    have hmem := List.mem_of_find?_eq_some hf
    have h2 : ∀ q ∈ upperLowerPairs, q.2 ≠ 'D' := by decide
    simpa using h2 p hmem

theorem no_D_in_normalizeCol (s : String) : 'D' ∉ (normalizeCol s).data := by
  intro hmem
  have h1 : 'D' ∈ (stripChars s.data).map lowerChar :=
    (List.mem_filter.mp hmem).1
  obtain ⟨c, _, hc⟩ := List.mem_map.mp h1
  exact lowerChar_ne_D c hc

theorem mem_stripChars {x : Char} {l : List Char} (h : x ∈ stripChars l) : x ∈ l := by
  unfold stripChars at h
  have h1 := List.mem_reverse.mp h
  have h2 := (List.dropWhile_sublist _).mem h1
  have h3 := List.mem_reverse.mp h2
  exact (List.dropWhile_sublist _).mem h3

theorem no_D_stripWs {n : String} (h : 'D' ∉ n.data) : 'D' ∉ (stripWs n).data :=
  fun hm => h (mem_stripChars hm)

theorem no_D_ne_Date {n : String} (h : 'D' ∉ n.data) : n ≠ "Date" := by
  intro he
  subst he
  exact h (by decide)

theorem colMapping_range {n m : String} (h : colMapping n = some m) :
    m = "Date" ∨ m = "Description" ∨ m = "Amount" := by
  unfold colMapping at h
  split_ifs at h
  · left; exact (Option.some.inj h).symm
  · right; left; exact (Option.some.inj h).symm
  · right; right; exact (Option.some.inj h).symm

theorem colMapping_not_Date {n : String} (h : strContains n "date" = false) :
    colMapping n ≠ some "Date" := by
  unfold colMapping
  intro hcm
  split_ifs at hcm with h1 h2 h3
  · rw [h] at h1; cases h1
  · exact absurd (Option.some.inj hcm) (by decide)
  · exact absurd (Option.some.inj hcm) (by decide)

theorem mem_applyMapping {t : Table} {col : Col}
    (h : col ∈ applyMapping (normalizeNames t)) :
    ∃ c0 ∈ t, col.name = (colMapping (normalizeCol c0.name)).getD (normalizeCol c0.name) := by
  unfold applyMapping normalizeNames at h
  rw [List.map_map] at h
  obtain ⟨c0, hc0, hcol⟩ := List.mem_map.mp h
  exact ⟨c0, hc0, by rw [← hcol]; rfl⟩

theorem mapped_name_cases {nm : String}
    (h : strContains (normalizeCol nm) "date" = false) :
    (colMapping (normalizeCol nm)).getD (normalizeCol nm) = "Description" ∨
    (colMapping (normalizeCol nm)).getD (normalizeCol nm) = "Amount" ∨
    (colMapping (normalizeCol nm)).getD (normalizeCol nm) = normalizeCol nm := by
  cases hcm : colMapping (normalizeCol nm) with
  | none => right; right; rfl
  | some m =>
    rcases colMapping_range hcm with rfl | rfl | rfl
    · exact absurd hcm (colMapping_not_Date h)
    · left; rfl
    · right; left; rfl

theorem combineStep_branch_name {c : Col} (x : List Cell) :
    (if c.name == "Amount" then { c with cells := x } else c).name = c.name := by
  split_ifs <;> rfl

theorem mem_combineStep {t : Table} {col : Col} (h : col ∈ combineStep t) :
    col.name = "Amount" ∨ ∃ c ∈ t, col.name = c.name := by
  unfold combineStep at h
  split_ifs at h with hg ha
  · have h1 := (List.mem_filter.mp h).1
    obtain ⟨c, hc, hcol⟩ := List.mem_map.mp h1
    right
    refine ⟨c, hc, ?_⟩
    rw [← hcol]
    exact combineStep_branch_name _
  · have h1 := (List.mem_filter.mp h).1
    rcases List.mem_append.mp h1 with hm | hm
    · right; exact ⟨col, hm, rfl⟩
    · left
      have hcol := List.mem_singleton.mp hm
      rw [hcol]
  · right; exact ⟨col, h, rfl⟩

theorem mem_dropEmptyCols {t : Table} {col : Col} (h : col ∈ dropEmptyCols t) :
    col ∈ t :=
  (List.mem_filter.mp h).1

theorem mem_dedupAux {col : Col} : ∀ (seen : List String) (t : Table),
    col ∈ dedupAux seen t → col ∈ t := by
  intro seen t
  induction t generalizing seen with
  | nil => intro h; exact absurd h (List.not_mem_nil col)
  | cons c rest ih =>
    intro h
    unfold dedupAux at h
    split_ifs at h with hs
    · exact List.mem_cons_of_mem _ (ih seen h)
    · rcases List.mem_cons.mp h with rfl | hm
      · exact List.mem_cons_self _ _
      · exact List.mem_cons_of_mem _ (ih _ hm)

theorem mem_stripNames {t : Table} {col : Col} (h : col ∈ stripNames t) :
    ∃ c ∈ t, col.name = stripWs c.name := by
  obtain ⟨c, hc, hcol⟩ := List.mem_map.mp h
  exact ⟨c, hc, by rw [← hcol]⟩

theorem dedupAux_find (n : String) : ∀ (t : Table) (seen : List String),
    (seen.contains n = false →
      (dedupAux seen t).find? (fun c => c.name == n) = t.find? (fun c => c.name == n)) ∧
    (seen.contains n = true →
      (dedupAux seen t).find? (fun c => c.name == n) = none) := by
  intro t
  induction t with
  | nil => intro seen; exact ⟨fun _ => rfl, fun _ => rfl⟩
  | cons c rest ih =>
    intro seen
    constructor
    · intro hno
      unfold dedupAux
      split_ifs with hs
      · rw [List.find?_cons]
        have hcn : (c.name == n) = false := by
          rcases hbe : c.name == n with _ | _
          · rfl
          · have : c.name = n := by simpa using hbe
            rw [this] at hs
            rw [hs] at hno
            cases hno
        rw [hcn]
        exact (ih seen).1 hno
      · rw [List.find?_cons, List.find?_cons]
        rcases hbe : c.name == n with _ | _
        · have hseen : ((c.name :: seen).contains n) = false := by
            simp only [List.contains_cons, Bool.or_eq_false_iff]
            refine ⟨?_, hno⟩
            have hne : c.name ≠ n := by simpa using hbe
            simpa using fun e => hne e.symm
          exact (ih (c.name :: seen)).1 hseen
        · rfl
    · intro hyes
      unfold dedupAux
      split_ifs with hs
      · exact (ih seen).2 hyes
      · rw [List.find?_cons]
        have hcn : (c.name == n) = false := by
          rcases hbe : c.name == n with _ | _
          · rfl
          · have he : c.name = n := by simpa using hbe
            rw [he] at hs
            exact absurd hyes hs
        rw [hcn]
        have hseen : ((c.name :: seen).contains n) = true := by
          simp only [List.contains_cons]
          rw [hyes]
          simp
        exact (ih (c.name :: seen)).2 hseen

theorem dedupCols_find_eq (t : Table) (n : String) :
    (dedupCols t).find? (fun c => c.name == n) = t.find? (fun c => c.name == n) :=
  (dedupAux_find n t []).1 rfl

/-- Helper for C4: after the rename, no column can bear the given
uncanonical name when that name itself would have been renamed. -/
theorem renamed_name_ne (bad : String) (hbad : colMapping bad = some "Amount")
    (hc1 : bad ≠ "Date") (hc2 : bad ≠ "Description") (hc3 : bad ≠ "Amount")
    {t : Table} {col : Col} (hcol : col ∈ applyMapping (normalizeNames t)) :
    col.name ≠ bad := by
  obtain ⟨c0, hc0, hname⟩ := mem_applyMapping hcol
  rw [hname]
  cases hcm : colMapping (normalizeCol c0.name) with
  | none =>
    simp only [Option.getD_none]
    intro he
    rw [he, hbad] at hcm
    cases hcm
  | some m =>
    simp only [Option.getD_some]
    rcases colMapping_range hcm with rfl | rfl | rfl
    · exact fun e => hc1 e.symm
    · exact fun e => hc2 e.symm
    · exact fun e => hc3 e.symm

theorem applyMapping_no_debit (t : Table) :
    hasColName (applyMapping (normalizeNames t)) "debit" = false := by
  unfold hasColName
  rw [List.any_eq_false]
  intro col hcol
  simpa using renamed_name_ne "debit" (by decide) (by decide) (by decide) (by decide) hcol

theorem applyMapping_no_credit (t : Table) :
    hasColName (applyMapping (normalizeNames t)) "credit" = false := by
  unfold hasColName
  rw [List.any_eq_false]
  intro col hcol
  simpa using renamed_name_ne "credit" (by decide) (by decide) (by decide) (by decide) hcol

/-- The combine branch never fires on a renamed table: renaming has
already renamed any column literally named `debit`. -/
theorem combineStep_applyMapping_id (t : Table) :
    combineStep (applyMapping (normalizeNames t)) = applyMapping (normalizeNames t) := by
  unfold combineStep
  rw [applyMapping_no_debit]
  simp

/-! ### Cell-preservation lemmas (CSV path)

Every operation of the column-normalization block is a column
operation: the cell list of each surviving column is carried over
positionally — either verbatim or, for the Amount column, through the
cellwise `to_numeric` map. -/

theorem mem_applyMapping_cells {t : Table} {col : Col}
    (h : col ∈ applyMapping (normalizeNames t)) :
    ∃ c0 ∈ t, col.cells = c0.cells := by
  unfold applyMapping normalizeNames at h
  rw [List.map_map] at h
  obtain ⟨c0, hc0, hcol⟩ := List.mem_map.mp h
  exact ⟨c0, hc0, by rw [← hcol]; rfl⟩

theorem mem_stripNames_cells {t : Table} {col : Col} (h : col ∈ stripNames t) :
    ∃ c ∈ t, col.cells = c.cells := by
  obtain ⟨c, hc, hcol⟩ := List.mem_map.mp h
  exact ⟨c, hc, by rw [← hcol]⟩

theorem normalizeTable_ok {t t1 : Table} (h : normalizeTable t = .ok t1) :
    t1 = normalizedCols t := by
  unfold normalizeTable at h
  by_cases hc : hasColName (normalizedCols t) "Date" = true
  · rw [if_pos hc] at h
    exact (Except.ok.inj h).symm
  · rw [if_neg hc] at h
    cases h

theorem amountStep_ok {t1 t' : Table} (h : amountStep t1 = .ok t') :
    t' = t1.map (fun c =>
      if c.name == "Amount" then { c with cells := c.cells.map toNumericCell } else c) := by
  unfold amountStep at h
  by_cases hc : hasColName t1 "Amount" = true
  · rw [if_pos hc] at h
    exact (Except.ok.inj h).symm
  · rw [if_neg hc] at h
    cases h

theorem processTable_ok {t t' : Table} (h : processTable t = .ok t') :
    ∃ t1, normalizeTable t = .ok t1 ∧ amountStep t1 = .ok t' := by
  unfold processTable at h
  cases hn : normalizeTable t with
  | ok t1 =>
    rw [hn] at h
    exact ⟨t1, rfl, h⟩
  | error e =>
    rw [hn] at h
    cases h

/-! ### Claim theorems -/

/-- Claim C1, counterexample. The claim asserts that for the line
`"01/02/2025 Grocery Store 1,234.56"` the parser emits the candidate
`(date "01/02/2025", description "Grocery Store", amount 1234.56)`, the
grouped amount having been parsed as a single number after comma
stripping. In fact the amount pattern allows at most three digits before
a separator group, so on the comma-stripped line the token `1234.56`
matches as `123` and `4.56`; the loop takes the last match, emitting
amount `4.56` and leaving the residue `1,23` in the description. -/
theorem C1_grouped_amount_cex :
    lineResult "01/02/2025 Grocery Store 1,234.56" =
      .emit "01/02/2025" "Grocery Store 1,23" (4.56 : ℚ) ∧
    lineResult "01/02/2025 Grocery Store 1,234.56" ≠
      .emit "01/02/2025" "Grocery Store" (1234.56 : ℚ) := by
  have h1 : (4.56 : ℚ) = mkRat 456 100 := by norm_num [Rat.mkRat_eq_div]
  have h2 : (1234.56 : ℚ) = mkRat 123456 100 := by norm_num [Rat.mkRat_eq_div]
  rw [h1, h2]
  constructor
  · decide
  · decide

/-- Claim C1, amended. Commas are stripped before amount matching, but a
thousands-grouped amount does not survive as one token: the pattern
splits the comma-stripped `1234.56` into `123` and `4.56`, the last
match wins, and the description retains the unremoved residue: the line
`"01/02/2025 Grocery Store 1,234.56"` yields date `01/02/2025`,
description `"Grocery Store 1,23"`, amount `4.56`. -/
theorem C1_split_amount_behaviour :
    findAllS (stripCommas "01/02/2025 Grocery Store 1,234.56") =
      ["01", "02", "202", "5", "123", "4.56"] ∧
    lineResult "01/02/2025 Grocery Store 1,234.56" =
      .emit "01/02/2025" "Grocery Store 1,23" (4.56 : ℚ) := by
  have h1 : (4.56 : ℚ) = mkRat 456 100 := by norm_num [Rat.mkRat_eq_div]
  rw [h1]
  constructor
  · decide
  · decide

/-- Claim C7: when a date matches and there are several amount matches
in the comma-stripped line, the candidate's amount is the value of the
last match (provided that value converts, which the loop's `float` call
presupposes). -/
theorem C7_last_amount_match_wins (row dm lastM : String) (q : ℚ)
    (hd : dateSearch row = some dm)
    (hl : (findAllS (stripCommas row)).getLast? = some lastM)
    (_hmany : 1 < (findAllS (stripCommas row)).length)
    (hq : pyFloat (stripCommas lastM) = some q) :
    ∃ desc, lineResult row = .emit dm desc q := by
  refine ⟨stripWs (pyReplaceDel (pyReplaceDel row dm) lastM), ?_⟩
  have step : lineResult row =
      match pyFloat (stripCommas lastM) with
      | none => LineOut.err
      | some amt => LineOut.emit dm (stripWs (pyReplaceDel (pyReplaceDel row dm) lastM)) amt := by
    unfold lineResult
    rw [hd, hl]
  rw [step, hq]

/-- Claim C7, witness: the grocery line has six amount matches and its
emitted amount is the value of the last one, `4.56`. -/
theorem C7_witness :
    ∃ desc, lineResult "01/02/2025 Grocery Store 1,234.56" =
      .emit "01/02/2025" desc (4.56 : ℚ) :=
  C7_last_amount_match_wins "01/02/2025 Grocery Store 1,234.56"
    "01/02/2025" "4.56" (4.56 : ℚ) (by decide) (by decide) (by decide)
    (by rw [show (4.56 : ℚ) = mkRat 456 100 from by norm_num [Rat.mkRat_eq_div]]; decide)

/-- Claim C8: a line on which the date pattern finds nothing, or the
amount pattern finds nothing, is silently discarded (no candidate, no
error). -/
theorem C8_unmatched_line_skipped (row : String)
    (h : dateSearch row = none ∨ findAllS (stripCommas row) = []) :
    lineResult row = .skip := by
  unfold lineResult
  rcases h with h | h
  · rw [h]
  · cases hd : dateSearch row with
    | none => rfl
    | some dm => rw [h]; rfl

/-- Claim C8, witness: the footer line `"Page 2 of 5"` has no date match
and yields no candidate. -/
theorem C8_witness : lineResult "Page 2 of 5" = LineOut.skip :=
  C8_unmatched_line_skipped "Page 2 of 5" (Or.inl (by decide))

/-- Claim C5: the OCR extractor runs exactly once per rasterized page
when the text layer produced zero lines across all pages, and zero times
otherwise; when it runs, the gathered rows are exactly the OCR lines in
page order (the sole source of candidates), and otherwise they are the
text-layer rows. -/
theorem C5_ocr_fallback_iff_no_text (d : PdfDoc) :
    (gatherRows d).2 = (if textRows d = [] then d.ocrPages.length else 0) ∧
    (gatherRows d).1 =
      (if textRows d = [] then concatAll (d.ocrPages.map splitLines) else textRows d) := by
  unfold gatherRows
  by_cases h : textRows d = []
  · simp [h, ocrLoop_eq]
  · simp [h, List.isEmpty_iff]

/-- Claim C10: the pipeline is deterministic. Both paths are pure
functions of the uploaded content and of the (held-fixed) external
behaviors — the date parser for the PDF path and the extractor outputs
in `PdfDoc` — so equal inputs give equal transaction tables. -/
theorem C10_pipeline_deterministic {α : Type} (pd1 pd2 : String → Option α)
    (d1 d2 : PdfDoc) (t1 t2 : Table)
    (hpd : pd1 = pd2) (hd : d1 = d2) (ht : t1 = t2) :
    parsePdfSmart pd1 d1 = parsePdfSmart pd2 d2 ∧ processTable t1 = processTable t2 := by
  subst hpd hd ht
  exact ⟨rfl, rfl⟩

/-- Claim C10, witness at a concrete PDF and a concrete table. -/
theorem C10_witness :
    parsePdfSmart (fun _ => (none : Option Nat)) ⟨[some "x"], []⟩ =
      parsePdfSmart (fun _ => (none : Option Nat)) ⟨[some "x"], []⟩ ∧
    processTable [⟨"date", [Cell.str "d"]⟩] = processTable [⟨"date", [Cell.str "d"]⟩] :=
  C10_pipeline_deterministic _ _ _ _ _ _ rfl rfl rfl

/-- Claim C9: the final table preserves input encounter order on both
paths, and nothing is merged or deduplicated. On the PDF path there is a
strictly increasing assignment of raw-line positions to the emitted
transactions, each transaction being exactly what its line yields, and
every transaction value occurs in the output as many times as input
lines yielding it. On the CSV/spreadsheet path the pipeline performs no
row operation at all: every column of the final table carries the cell
list of some input column positionally — verbatim, or through the
cellwise Amount coercion — so row order and row multiplicity are those
of the input. -/
theorem C9_order_preserved_no_dedup :
    (∀ (α : Type) [DecidableEq α] (pd : String → Option α) (d : PdfDoc)
        (out : List (α × String × ℚ)), parsePdfSmart pd d = .ok out →
      (∃ ix : List Nat, ix.Pairwise (· < ·) ∧
        List.Forall₂ (fun i tx => ∃ r, (pdfRows d).get? i = some r ∧ rowToTx pd r = some tx)
          ix out) ∧
      ∀ tx, out.countP (fun x => decide (x = tx)) =
        (pdfRows d).countP (fun r => decide (rowToTx pd r = some tx))) ∧
    (∀ t t' : Table, processTable t = .ok t' →
      ∀ col ∈ t', ∃ c0 ∈ t,
        col.cells = c0.cells ∨ col.cells = c0.cells.map toNumericCell) := by
  constructor
  · intro α instα pd d out h
    obtain ⟨l, hl, hout⟩ := parsePdfSmart_ok h
    have hfm : out = (pdfRows d).filterMap (rowToTx pd) := by
      rw [hout, parseLoop_ok_eq hl]
      unfold finalizeRows rowToTx
      rw [List.filterMap_filterMap]
    subst hfm
    exact ⟨filterMap_index_embed _ _, fun tx => countP_filterMap_eq _ _ tx⟩
  · intro t t' h col hcol
    obtain ⟨t1, hn, ha⟩ := processTable_ok h
    rw [amountStep_ok ha] at hcol
    obtain ⟨c1, hc1, hcol1⟩ := List.mem_map.mp hcol
    rw [normalizeTable_ok hn] at hc1
    unfold normalizedCols at hc1
    obtain ⟨c2, hc2, hcells2⟩ := mem_stripNames_cells hc1
    have hc3 := mem_dedupAux _ _ hc2
    have hc4 := mem_dropEmptyCols hc3
    rw [combineStep_applyMapping_id] at hc4
    obtain ⟨c0, hc0, hcells0⟩ := mem_applyMapping_cells hc4
    refine ⟨c0, hc0, ?_⟩
    by_cases hname : c1.name == "Amount"
    · right
      rw [← hcol1, if_pos hname]
      show c1.cells.map toNumericCell = c0.cells.map toNumericCell
      rw [hcells2, hcells0]
    · left
      rw [← hcol1, if_neg hname]
      show c1.cells = c0.cells
      rw [hcells2, hcells0]

/-- Claim C9, witness: a one-line PDF whose line carries no date yields
the empty table, trivially order-preserving and duplicate-free; and a
two-column CSV table's final columns carry the input columns' cell
lists positionally (the Amount column through the cellwise coercion). -/
theorem C9_witness :
    ((∃ ix : List Nat, ix.Pairwise (· < ·) ∧
      List.Forall₂
        (fun i tx => ∃ r, (pdfRows ⟨[some "x"], []⟩).get? i = some r ∧
          rowToTx (fun _ => (none : Option Nat)) r = some tx)
        ix ([] : List (Nat × String × ℚ))) ∧
    ∀ tx : Nat × String × ℚ,
      List.countP (fun x => decide (x = tx)) ([] : List (Nat × String × ℚ)) =
        (pdfRows ⟨[some "x"], []⟩).countP
          (fun r => decide (rowToTx (fun _ => (none : Option Nat)) r = some tx))) ∧
    (∀ col ∈ [Col.mk "Date" [Cell.str "d"], Col.mk "Amount" [Cell.num 5]],
      ∃ c0 ∈ [Col.mk "date" [Cell.str "d"], Col.mk "amount" [Cell.str "5"]],
        col.cells = c0.cells ∨ col.cells = c0.cells.map toNumericCell) :=
  ⟨C9_order_preserved_no_dedup.1 Nat (fun _ => none) ⟨[some "x"], []⟩ [] rfl,
   C9_order_preserved_no_dedup.2
     [Col.mk "date" [Cell.str "d"], Col.mk "amount" [Cell.str "5"]]
     [Col.mk "Date" [Cell.str "d"], Col.mk "Amount" [Cell.num 5]] rfl⟩

/-- Helper for C6: under the no-date-keyword hypothesis, no column of the
fully normalized table is named `Date`. -/
theorem no_Date_col (t : Table)
    (ht : ∀ c ∈ t, strContains (normalizeCol c.name) "date" = false) :
    hasColName (normalizedCols t) "Date" = false := by
  unfold hasColName
  rw [List.any_eq_false]
  intro col hcol
  obtain ⟨c1, hc1, hname⟩ := mem_stripNames hcol
  have hc2 := mem_dedupAux _ _ hc1
  have hc3 := mem_dropEmptyCols hc2
  rcases mem_combineStep hc3 with hA | ⟨c2, hc4, hname2⟩
  · rw [hname, hA]
    decide
  · obtain ⟨c0, hc0, hname3⟩ := mem_applyMapping hc4
    rcases mapped_name_cases (ht c0 hc0) with hD | hA | hplain
    · rw [hname, hname2, hname3, hD]
      decide
    · rw [hname, hname2, hname3, hA]
      decide
    · rw [hname, hname2, hname3, hplain]
      have hne := no_D_ne_Date (no_D_stripWs (no_D_in_normalizeCol c0.name))
      simpa using hne

/-- Claim C6: when no input column's normalized name contains the
keyword that resolves to the canonical Date column, the normalization
block ends in the hard stop (the missing-Date error), and the check
requires only Date: a table having only a Date-resolvable column — no
Description, no Amount — passes the check. -/
theorem C6_missing_date_hard_stop :
    (∀ t : Table, (∀ c ∈ t, strContains (normalizeCol c.name) "date" = false) →
      normalizeTable t = .error .missingDate) ∧
    normalizeTable [⟨"Txn Date", [Cell.str "x"]⟩] = .ok [⟨"Date", [Cell.str "x"]⟩] := by
  constructor
  · intro t ht
    unfold normalizeTable
    rw [no_Date_col t ht]
    simp
  · rfl

/-- Claim C6, witness: a table whose single column name contains no date
keyword is rejected with the missing-Date hard stop. -/
theorem C6_witness : normalizeTable [⟨"foo", [Cell.num 1]⟩] = .error .missingDate :=
  C6_missing_date_hard_stop.1 [⟨"foo", [Cell.num 1]⟩] (by decide)

/-- Claim C4, amended and proved: header renaming precedes the combine
guard and maps every column literally named `debit` or `credit` (after
normalization) to `Amount`, so the renamed table never has a column
literally named `debit` or `credit`, the guard is always false and the
combine step is the identity; duplicate-column removal keeps the first
column of each name. -/
theorem C4_combine_branch_unreachable :
    (∀ t : Table,
      hasColName (applyMapping (normalizeNames t)) "debit" = false ∧
      hasColName (applyMapping (normalizeNames t)) "credit" = false ∧
      combineStep (applyMapping (normalizeNames t)) = applyMapping (normalizeNames t)) ∧
    (∀ (t : Table) (n : String),
      (dedupCols t).find? (fun c => c.name == n) = t.find? (fun c => c.name == n)) ∧
    (∀ n : String, n = "debit" ∨ n = "credit" → colMapping n = some "Amount") := by
  refine ⟨?_, ?_, ?_⟩
  · intro t
    exact ⟨applyMapping_no_debit t, applyMapping_no_credit t, combineStep_applyMapping_id t⟩
  · exact fun t n => dedupCols_find_eq t n
  · intro n h
    rcases h with rfl | rfl
    · decide
    · decide

/-- Claim C4, witness: a column literally named `debit` is renamed to
`Amount` by the header mapping. -/
theorem C4_witness : colMapping "debit" = some "Amount" :=
  C4_combine_branch_unreachable.2.2 "debit" (Or.inl rfl)

/-- Claim C4, counterexample to two of its subclauses. A column whose
normalized name contains `debit` is not always renamed to `Amount`: the
`date` keyword is checked first, so `"Debit Date"` becomes `Date`. And
the final Amount values are not always those of the first matching
column in input order: an all-empty debit column is removed by the
empty-column drop, leaving the credit column's values as Amount. -/
theorem C4_rename_priority_cex :
    normalizeCol "Debit Date" = "debitdate" ∧
    strContains "debitdate" "debit" = true ∧
    applyMapping (normalizeNames [⟨"Debit Date", [Cell.str "v"]⟩]) = [⟨"Date", [Cell.str "v"]⟩] ∧
    ("Date" : String) ≠ "Amount" ∧
    normalizeTable [⟨"date", [Cell.str "a", Cell.str "b"]⟩, ⟨"debit", [Cell.na, Cell.na]⟩,
        ⟨"credit", [Cell.num 7, Cell.num 25]⟩] =
      .ok [⟨"Date", [Cell.str "a", Cell.str "b"]⟩, ⟨"Amount", [Cell.num 7, Cell.num 25]⟩] :=
  ⟨by decide, by decide, by rfl, by decide, by rfl⟩

/-- Claim C2: the spec says the canonical Amount of a table with
distinct debit and credit columns is credit-minus-debit. The code's
combine branch is dead (see C4): on the claim's own table the final
Amount column carries the debit values `[10, 0]`, not `[-10, 25]`. The
code contradicts its own `Combine Debit/Credit columns if present`
comment, whose implementation lines 135-137 can never run. -/
theorem C2_combine_never_runs :
    processTable [⟨"date", [Cell.str "d1", Cell.str "d2"]⟩,
        ⟨"debit", [Cell.num 10, Cell.num 0]⟩, ⟨"credit", [Cell.num 0, Cell.num 25]⟩] =
      .ok [⟨"Date", [Cell.str "d1", Cell.str "d2"]⟩, ⟨"Amount", [Cell.num 10, Cell.num 0]⟩] ∧
    [Cell.num (10 : ℚ), Cell.num 0] ≠ [Cell.num (-10 : ℚ), Cell.num 25] :=
  ⟨by rfl, by decide⟩

/-- Claim C3, counterexample. On the CSV/spreadsheet path the code never
parses Date cells and never drops rows: a table whose Date cell is the
unparsable `"N/A"` passes through normalization and Amount coercion with
that row intact, so the final table does not guarantee a valid calendar
date per row. Only the PDF path (lines 68-70) filters by date. -/
theorem C3_csv_keeps_unparsable_date_cex :
    processTable [⟨"Date", [Cell.str "N/A"]⟩, ⟨"Description", [Cell.str "x"]⟩,
        ⟨"Amount", [Cell.str "5"]⟩] =
      .ok [⟨"Date", [Cell.str "N/A"]⟩, ⟨"Description", [Cell.str "x"]⟩,
        ⟨"Amount", [Cell.num 5]⟩] := by
  rfl

/-- Claim C3, amended: the day-first parse and silent row drop hold on
the PDF path only. There, every emitted transaction's date comes from a
successful parse by the (external, day-first) date parser, and the
table's length is the number of candidates whose date parses — rows with
unparsable dates are dropped without an error. -/
theorem C3_pdf_date_guarantee {α : Type} (pd : String → Option α) (d : PdfDoc)
    (out : List (α × String × ℚ)) (cands : List (String × String × ℚ))
    (h : parsePdfSmart pd d = .ok out) (hc : parseLoop (pdfRows d) = .ok cands) :
    (∀ tx ∈ out, ∃ s, pd s = some tx.1) ∧
    out.length = (cands.filter (fun c => (pd c.1).isSome)).length := by
  obtain ⟨l, hl, hout⟩ := parsePdfSmart_ok h
  rw [hl] at hc
  obtain rfl : l = cands := Except.ok.inj hc
  subst hout
  constructor
  · intro tx htx
    obtain ⟨c, hcmem, hct⟩ := List.mem_filterMap.mp htx
    unfold candToTx at hct
    cases hpd : pd c.1 with
    | none =>
      rw [hpd] at hct
      cases hct
    | some x =>
      rw [hpd] at hct
      refine ⟨c.1, ?_⟩
      cases hct
      exact hpd
  · unfold finalizeRows
    rw [length_filterMap_eq_length_filter]
    have hfun : (fun c => (candToTx pd c).isSome) = (fun c => (pd c.1).isSome) := by
      funext c
      unfold candToTx
      cases pd c.1 <;> rfl
    rw [hfun]

/-- Claim C3, witness: a two-line PDF where only the first date parses
yields exactly the first transaction. -/
theorem C3_witness :
    (∀ tx ∈ [((0 : Nat), "Coffee", mkRat 350 100)], ∃ s,
        (fun s => if s = "01/02/2025" then some (0 : Nat) else none) s = some tx.1) ∧
    ([((0 : Nat), "Coffee", mkRat 350 100)]).length =
      (([("01/02/2025", "Coffee", mkRat 350 100), ("03/04/2025", "Tea", mkRat 225 100)]).filter
        (fun c => ((fun s => if s = "01/02/2025" then some (0 : Nat) else none) c.1).isSome)).length :=
  C3_pdf_date_guarantee (fun s => if s = "01/02/2025" then some 0 else none)
    ⟨[some "01/02/2025 Coffee 3.50\n03/04/2025 Tea 2.25"], []⟩
    [((0 : Nat), "Coffee", mkRat 350 100)]
    [("01/02/2025", "Coffee", mkRat 350 100), ("03/04/2025", "Tea", mkRat 225 100)]
    (by rfl) (by rfl)

end BankApp
